import Mathlib

/-!
Verification of the sightmap geometry-to-instructions pipeline.

Shallow embedding of the source code:
  - the segmenter and relativizer (`getDirection`, `directionToAngle`,
    `calculateTurnDirection`, `getPerpendicularDistance`,
    `calculatePathSegments`, `calculateRelativeDirections`);
  - the display-time step adjuster (`adjustInstructionText`);
  - the streaming completion parser (`parseCompletionContent`).

Machine floats are modelled by exact rationals; JavaScript strings by
`List Char` (for the parser and adjuster) or `String` (for phrase fields).
-/

namespace SightMap

/-- Movement direction, as in the source union type
`"forward" | "left" | "right" | "backwards"`. -/
inductive Dir where
  | forward
  | backwards
  | left
  | right
deriving DecidableEq

/-- A persisted path anchor; only the coordinate fields are relevant here.
Source field names `xCoords`, `yCoords` kept. -/
structure PathAnchor where
  xCoords : ℚ
  yCoords : ℚ
deriving DecidableEq

/-- A room; only name and bounding box are used by the segmenter. -/
structure Room where
  name : String
  x : ℚ
  y : ℚ
  width : ℚ
  height : ℚ
deriving DecidableEq

/-- A derived movement segment, as in the source interface `PathSegment`. -/
structure PathSegment where
  direction : Dir
  steps : ℕ
  nearbyRooms : List String
  relativeDirection : Option String := none
  facingDirection : Option Dir := none
deriving DecidableEq

/-- Source `getDirection`: classify the dominant axis of the displacement.
`Math.abs` is `|·|`; the strict comparison and the tie-break to the
vertical branch are exactly as in the code. -/
def getDirection (f t : ℚ × ℚ) : Dir :=
  let dx := t.1 - f.1
  let dy := t.2 - f.2
  if |dx| > |dy| then (if dx > 0 then .right else .left)
  else (if dy < 0 then .forward else .backwards)

/-- Source `directionToAngle`: 0 = forward, 90 = right, 180 = backwards,
270 = left (degrees, clockwise from forward). -/
def directionToAngle : Dir → ℤ
  | .forward => 0
  | .right => 90
  | .backwards => 180
  | .left => 270

/-- Turn decision result of `calculateTurnDirection` (`"left" | "right" | null`). -/
inductive Turn where
  | left
  | right
deriving DecidableEq

/-- Source `calculateTurnDirection`: `angleDiff = (target - current + 360) % 360`;
`0 ↦ null`, `≤ 180 ↦ right`, otherwise `left`.  JavaScript `%` on these
non-negative operands agrees with `Int.emod`. -/
def calculateTurnDirection (currentFacing targetDirection : ℤ) : Option Turn :=
  let angleDiff := (targetDirection - currentFacing + 360) % 360
  if angleDiff = 0 then none
  else if angleDiff ≤ 180 then some .right
  else some .left

/-- SQUARE of the value returned by the source `getPerpendicularDistance`.
The source computes `A,B,C,D`, `dot`, `lenSq`, the clamped projection
parameter and the closest point `(xx, yy)` exactly as below and finally
returns `Math.sqrt` of this expression; the square root cannot be taken
inside `ℚ`, so we keep the squared distance and compare against squared
thresholds (`dist ≤ 100 ↔ distSq ≤ 10000`; see theorem `claim5`). -/
def getPerpendicularDistanceSq (point lineStart lineEnd : ℚ × ℚ) : ℚ :=
  let A := point.1 - lineStart.1
  let B := point.2 - lineStart.2
  let C := lineEnd.1 - lineStart.1
  let D := lineEnd.2 - lineStart.2
  let dot := A * C + B * D
  let lenSq := C * C + D * D
  if lenSq = 0 then A * A + B * B
  else
    let param := dot / lenSq
    let xx := if param < 0 then lineStart.1
      else if param > 1 then lineEnd.1
      else lineStart.1 + param * C
    let yy := if param < 0 then lineStart.2
      else if param > 1 then lineEnd.2
      else lineStart.2 + param * D
    (point.1 - xx) ^ 2 + (point.2 - yy) ^ 2

/-- `Math.round (Math.sqrt q / 20)` for a non-negative rational `q`, computed
without leaving `ℚ`: round-half-up of `√q / 20` equals
`(Nat.sqrt ⌊q⌋₊ + 10) / 20` (theorem `stepsOfDistSq_eq`). -/
def stepsOfDistSq (q : ℚ) : ℕ :=
  (Nat.sqrt ⌊q⌋₊ + 10) / 20

/-- The `roomCenter` computed inside the nearby-room filter of the source
`calculatePathSegments`: the center of the room's bounding box. -/
def roomCenter (room : Room) : ℚ × ℚ :=
  (room.x + room.width / 2, room.y + room.height / 2)

/-- Loop body of the source `calculatePathSegments` for one consecutive
anchor pair: distance-quantized step count, direction, and the rooms whose
bounding-box center is within 100px of the segment, in supplied order.
The source compares `getPerpendicularDistance ≤ 100`; with the squared
distance this is `≤ 10000` (both sides non-negative; see `claim5`). -/
def pairSegment (allRooms : List Room) (f t : PathAnchor) : PathSegment :=
  let distSq := (t.xCoords - f.xCoords) ^ 2 + (t.yCoords - f.yCoords) ^ 2
  let steps := stepsOfDistSq distSq
  let direction := getDirection (f.xCoords, f.yCoords) (t.xCoords, t.yCoords)
  let nearbyRooms := (allRooms.filter fun room =>
    getPerpendicularDistanceSq (roomCenter room) (f.xCoords, f.yCoords)
      (t.xCoords, t.yCoords) ≤ 10000).map Room.name
  { direction := direction, steps := steps, nearbyRooms := nearbyRooms }

/-- Source `calculatePathSegments`: iterate over consecutive index pairs
`(anchors[i], anchors[i+1])`; the `if (!from || !to) continue` guard is the
`Option` match (a missing endpoint contributes no segment). -/
def calculatePathSegments (anchors : List (Option PathAnchor))
    (allRooms : List Room) : List PathSegment :=
  (anchors.zip anchors.tail).filterMap fun p =>
    match p with
    | (some f, some t) => some (pairSegment allRooms f t)
    | _ => none

/-- Phrase built by the source from the optional turn:
`Turn ${turnDirection} and move forward` or `Move forward`. -/
def turnPhrase : Option Turn → String
  | some .left => "Turn left and move forward"
  | some .right => "Turn right and move forward"
  | none => "Move forward"

/-- One enriched segment of `calculateRelativeDirections` for a non-initial
index: turn computed from the running facing angle, and `facingDirection`
recorded as the segment's own absolute direction. -/
def enrichSegment (facing : ℤ) (s : PathSegment) : PathSegment :=
  { s with
    relativeDirection :=
      some (turnPhrase (calculateTurnDirection facing (directionToAngle s.direction)))
    facingDirection := some s.direction }

/-- The `segments.map` loop of `calculateRelativeDirections` from index 1
onward, carrying the mutable `currentFacingAngle` as an accumulator. -/
def relativeAux (facing : ℤ) : List PathSegment → List PathSegment
  | [] => []
  | s :: rest =>
    enrichSegment facing s :: relativeAux (directionToAngle s.direction) rest

/-- Source `calculateRelativeDirections`: empty list unchanged; the first
segment gets `relativeDirection = "Move forward"` (the `index === 0`
special case) and the facing angle is initialized to its direction. -/
def calculateRelativeDirections : List PathSegment → List PathSegment
  | [] => []
  | s :: rest =>
    { s with
      relativeDirection := some "Move forward"
      facingDirection := some s.direction }
      :: relativeAux (directionToAngle s.direction) rest

/-! ### Bridge between the rational embedding and real square roots -/

theorem natFloor_sqrt_ratCast (q : ℚ) (hq : 0 ≤ q) :
    ⌊Real.sqrt (q : ℝ)⌋₊ = Nat.sqrt ⌊q⌋₊ := by
  have hq' : (0 : ℝ) ≤ (q : ℝ) := by exact_mod_cast hq
  apply Nat.floor_eq_iff (Real.sqrt_nonneg _) |>.mpr
  constructor
  · calc (Nat.sqrt ⌊q⌋₊ : ℝ) ≤ Real.sqrt (⌊q⌋₊ : ℕ) := Real.nat_sqrt_le_real_sqrt
      _ ≤ Real.sqrt (q : ℝ) := by
          apply Real.sqrt_le_sqrt
          exact_mod_cast Nat.floor_le hq
  · have h1 : (q : ℝ) < ⌊q⌋₊ + 1 := by exact_mod_cast Nat.lt_floor_add_one q
    have h2 : (⌊q⌋₊ + 1 : ℕ) ≤ (Nat.sqrt ⌊q⌋₊ + 1) * (Nat.sqrt ⌊q⌋₊ + 1) :=
      Nat.lt_succ_sqrt ⌊q⌋₊
    have h3 : ((⌊q⌋₊ : ℝ) + 1) ≤ ((Nat.sqrt ⌊q⌋₊ : ℝ) + 1) * ((Nat.sqrt ⌊q⌋₊ : ℝ) + 1) := by
      exact_mod_cast h2
    have h4 : (q : ℝ) < ((Nat.sqrt ⌊q⌋₊ : ℝ) + 1) ^ 2 := by nlinarith [h1, h3]
    have h5 := (Real.sqrt_lt' (x := (q : ℝ))
      (y := (Nat.sqrt ⌊q⌋₊ : ℝ) + 1) (by positivity)).mpr h4
    push_cast at h5 ⊢
    linarith

theorem stepsOfDistSq_eq (q : ℚ) (hq : 0 ≤ q) :
    stepsOfDistSq q = ⌊Real.sqrt (q : ℝ) / 20 + 1 / 2⌋₊ := by
  have hfloor : ⌊Real.sqrt (q : ℝ) + 10⌋₊ = Nat.sqrt ⌊q⌋₊ + 10 := by
    have h10 : (10 : ℝ) = ((10 : ℕ) : ℝ) := by norm_num
    rw [h10, Nat.floor_add_nat (Real.sqrt_nonneg _) 10, natFloor_sqrt_ratCast q hq]
  have hrw : Real.sqrt (q : ℝ) / 20 + 1 / 2 = (Real.sqrt (q : ℝ) + 10) / ((20 : ℕ) : ℝ) := by
    push_cast
    ring
  rw [stepsOfDistSq, hrw, Nat.floor_div_nat, hfloor]

/-- Claim C1: for every consecutive anchor pair processed by the segmenter,
`steps` is the round-half-up of the Euclidean distance divided by 20 (zero
steps is a valid value of type `ℕ`, not an error), and the direction is
classified from `dx`, `dy` with `|dx| > |dy|` selecting the horizontal
branch and the tie going to the vertical branch. -/
theorem claim1 (rooms : List Room) (f t : PathAnchor) :
    (((pairSegment rooms f t).steps : ℤ)
        = ⌊Real.sqrt (((t.xCoords - f.xCoords) ^ 2 + (t.yCoords - f.yCoords) ^ 2 : ℚ) : ℝ)
            / 20 + 1 / 2⌋)
    ∧ ((pairSegment rooms f t).direction =
        (if |t.xCoords - f.xCoords| > |t.yCoords - f.yCoords| then
          (if t.xCoords - f.xCoords > 0 then Dir.right else Dir.left)
         else
          (if t.yCoords - f.yCoords < 0 then Dir.forward else Dir.backwards))) := by
  constructor
  · have hq : (0 : ℚ) ≤ (t.xCoords - f.xCoords) ^ 2 + (t.yCoords - f.yCoords) ^ 2 := by
      positivity
    have hx : (0 : ℝ) ≤ Real.sqrt
        (((t.xCoords - f.xCoords) ^ 2 + (t.yCoords - f.yCoords) ^ 2 : ℚ) : ℝ) / 20 + 1 / 2 := by
      have := Real.sqrt_nonneg
        (((t.xCoords - f.xCoords) ^ 2 + (t.yCoords - f.yCoords) ^ 2 : ℚ) : ℝ)
      linarith
    rw [show (pairSegment rooms f t).steps
        = stepsOfDistSq ((t.xCoords - f.xCoords) ^ 2 + (t.yCoords - f.yCoords) ^ 2) from rfl,
      stepsOfDistSq_eq _ hq, Int.natCast_floor_eq_floor hx]
  · simp only [pairSegment, getDirection]

/-! ### Relativizer lemmas -/

theorem relativeAux_length (facing : ℤ) (segs : List PathSegment) :
    (relativeAux facing segs).length = segs.length := by
  induction segs generalizing facing with
  | nil => rfl
  | cons s rest ih => simp [relativeAux, ih]

theorem relativeAux_getElem_zero (facing : ℤ) (segs : List PathSegment) :
    (relativeAux facing segs)[0]? = (segs[0]?).map (enrichSegment facing) := by
  cases segs with
  | nil => rfl
  | cons s rest => simp [relativeAux]

theorem relativeAux_getElem_succ (facing : ℤ) (segs : List PathSegment)
    (i : ℕ) (p : PathSegment) (hp : segs[i]? = some p) :
    (relativeAux facing segs)[i + 1]?
      = (segs[i + 1]?).map (enrichSegment (directionToAngle p.direction)) := by
  induction segs generalizing facing i with
  | nil => simp at hp
  | cons s rest ih =>
    cases i with
    | zero =>
      simp only [List.getElem?_cons_zero, Option.some.injEq] at hp
      subst hp
      simp only [relativeAux, List.getElem?_cons_succ]
      exact relativeAux_getElem_zero _ rest
    | succ j =>
      simp only [List.getElem?_cons_succ] at hp
      simp only [relativeAux, List.getElem?_cons_succ]
      exact ih _ j hp

theorem turnPhrase_branches (a b : ℤ) :
    turnPhrase (calculateTurnDirection a b)
      = (if (b - a + 360) % 360 = 0 then "Move forward"
         else if (b - a + 360) % 360 ≤ 180 then "Turn right and move forward"
         else "Turn left and move forward") := by
  simp only [calculateTurnDirection]
  split_ifs <;> rfl

/-- Claim C2: in `calculateRelativeDirections`, segment 0 always gets
`"Move forward"`; a segment following segment `p` gets the phrase decided by
`angleDiff = (segmentAngle - currentFacing + 360) % 360`, where the running
facing is the previous segment's angle (it is updated after every segment):
`0 ↦ "Move forward"`, `0 < d ≤ 180 ↦ "Turn right and move forward"`
(180 exactly is a right turn), `d > 180 ↦ "Turn left and move forward"`. -/
theorem claim2 (segs : List PathSegment) :
    (∀ s0, segs[0]? = some s0 →
      ∃ o, (calculateRelativeDirections segs)[0]? = some o
        ∧ o.relativeDirection = some "Move forward")
    ∧ (∀ i p c, segs[i]? = some p → segs[i + 1]? = some c →
      ∃ o, (calculateRelativeDirections segs)[i + 1]? = some o
        ∧ o.relativeDirection = some
            (if (directionToAngle c.direction - directionToAngle p.direction + 360) % 360 = 0
              then "Move forward"
              else if (directionToAngle c.direction - directionToAngle p.direction + 360) % 360
                  ≤ 180
                then "Turn right and move forward"
                else "Turn left and move forward")) := by
  constructor
  · intro s0 h0
    cases segs with
    | nil => simp at h0
    | cons s rest =>
      simp only [List.getElem?_cons_zero, Option.some.injEq] at h0
      refine ⟨{ s with relativeDirection := some "Move forward", facingDirection := some s.direction }, ?_, rfl⟩
      simp [calculateRelativeDirections]
  · intro i p c hp hc
    cases segs with
    | nil => simp at hp
    | cons s rest =>
      have hout : (calculateRelativeDirections (s :: rest))[i + 1]?
          = (relativeAux (directionToAngle s.direction) rest)[i]? := by
        simp [calculateRelativeDirections]
      cases i with
      | zero =>
        simp only [List.getElem?_cons_zero, Option.some.injEq] at hp
        subst hp
        simp only [List.getElem?_cons_succ] at hc
        refine ⟨enrichSegment (directionToAngle s.direction) c, ?_, ?_⟩
        · rw [hout, relativeAux_getElem_zero, hc, Option.map_some']
        · simp [enrichSegment, turnPhrase_branches]
      | succ j =>
        simp only [List.getElem?_cons_succ] at hp hc
        refine ⟨enrichSegment (directionToAngle p.direction) c, ?_, ?_⟩
        · rw [hout, relativeAux_getElem_succ _ _ j p hp, hc, Option.map_some']
        · simp [enrichSegment, turnPhrase_branches]

/-- Claim C9: the relativizer is length-preserving (empty to empty), leaves
`direction`, `steps` and `nearbyRooms` untouched, fills `relativeDirection`,
and sets `facingDirection` to the segment's own absolute direction. -/
theorem claim9 (segs : List PathSegment) :
    ((calculateRelativeDirections segs).length = segs.length)
    ∧ (calculateRelativeDirections [] = ([] : List PathSegment))
    ∧ (∀ (i : ℕ) (s : PathSegment), segs[i]? = some s →
      ∃ o : PathSegment, (calculateRelativeDirections segs)[i]? = some o
        ∧ o.direction = s.direction
        ∧ o.steps = s.steps
        ∧ o.nearbyRooms = s.nearbyRooms
        ∧ o.facingDirection = some s.direction
        ∧ o.relativeDirection.isSome = true) := by
  refine ⟨?_, rfl, ?_⟩
  · cases segs with
    | nil => rfl
    | cons s rest => simp [calculateRelativeDirections, relativeAux_length]
  · intro i s hs
    cases segs with
    | nil => simp at hs
    | cons s0 rest =>
      cases i with
      | zero =>
        simp only [List.getElem?_cons_zero, Option.some.injEq] at hs
        subst hs
        refine ⟨{ s0 with relativeDirection := some "Move forward", facingDirection := some s0.direction }, ?_, rfl, rfl, rfl, rfl, rfl⟩
        simp [calculateRelativeDirections]
      | succ j =>
        simp only [List.getElem?_cons_succ] at hs
        have hout : (calculateRelativeDirections (s0 :: rest))[j + 1]?
            = (relativeAux (directionToAngle s0.direction) rest)[j]? := by
          simp [calculateRelativeDirections]
        cases j with
        | zero =>
          refine ⟨enrichSegment (directionToAngle s0.direction) s, ?_, rfl, rfl, rfl, rfl, rfl⟩
          rw [hout, relativeAux_getElem_zero, hs, Option.map_some']
        | succ k =>
          obtain ⟨p, hp⟩ : ∃ p, rest[k]? = some p := by
            cases hk : rest[k]? with
            | none =>
              exfalso
              have hlen : rest.length ≤ k := by
                simpa using List.getElem?_eq_none_iff.mp hk
              have : rest[k + 1]? = none := by
                apply List.getElem?_eq_none_iff.mpr
                omega
              rw [this] at hs
              exact Option.noConfusion hs
            | some p => exact ⟨p, rfl⟩
          refine ⟨enrichSegment (directionToAngle p.direction) s, ?_, rfl, rfl, rfl, rfl, rfl⟩
          rw [hout, relativeAux_getElem_succ _ _ k p hp, hs, Option.map_some']

/-- Demo segments used by the relativizer witnesses. -/
def demoSegA : PathSegment := { direction := .right, steps := 5, nearbyRooms := [] }

def demoSegB : PathSegment := { direction := .backwards, steps := 8, nearbyRooms := [] }

theorem claim2_witness :
    (([demoSegA, demoSegB] : List PathSegment)[0]? = some demoSegA)
    ∧ (∃ o, (calculateRelativeDirections [demoSegA, demoSegB])[0 + 1]? = some o
        ∧ o.relativeDirection = some
            (if (directionToAngle demoSegB.direction - directionToAngle demoSegA.direction
                  + 360) % 360 = 0
              then "Move forward"
              else if (directionToAngle demoSegB.direction - directionToAngle demoSegA.direction
                  + 360) % 360 ≤ 180
                then "Turn right and move forward"
                else "Turn left and move forward"))
    ∧ (if (directionToAngle demoSegB.direction - directionToAngle demoSegA.direction
          + 360) % 360 = 0
        then "Move forward"
        else if (directionToAngle demoSegB.direction - directionToAngle demoSegA.direction
            + 360) % 360 ≤ 180
          then "Turn right and move forward"
          else "Turn left and move forward") = "Turn right and move forward" :=
  ⟨rfl, (claim2 [demoSegA, demoSegB]).2 0 demoSegA demoSegB rfl rfl, by decide⟩

theorem claim9_witness :
    ∃ o, (calculateRelativeDirections [demoSegA, demoSegB])[1]? = some o
      ∧ o.direction = demoSegB.direction
      ∧ o.steps = demoSegB.steps
      ∧ o.nearbyRooms = demoSegB.nearbyRooms
      ∧ o.facingDirection = some demoSegB.direction
      ∧ o.relativeDirection.isSome = true :=
  (claim9 [demoSegA, demoSegB]).2.2 1 demoSegB rfl

/-! ### Segmenter robustness -/

theorem filterMap_pairs_length (rooms : List Room)
    (l : List (Option PathAnchor × Option PathAnchor)) :
    (l.filterMap fun p =>
      match p with
      | (some f, some t) => some (pairSegment rooms f t)
      | _ => none).length
      = l.countP fun p => p.1.isSome && p.2.isSome := by
  induction l with
  | nil => rfl
  | cons p rest ih =>
    obtain ⟨a, b⟩ := p
    cases a <;> cases b <;>
      simp [List.filterMap_cons, List.countP_cons, ih]

/-- Claim C8: the segmenter is total on malformed input: fewer than two
anchors give the empty list, and a pair with a missing endpoint is skipped
(the output length is exactly the number of fully-present consecutive
pairs), so the result is always a well-formed, possibly shorter, list. -/
theorem claim8 (anchors : List (Option PathAnchor)) (rooms : List Room) :
    (anchors.length < 2 → calculatePathSegments anchors rooms = [])
    ∧ (calculatePathSegments anchors rooms).length
        = (anchors.zip anchors.tail).countP fun p => p.1.isSome && p.2.isSome := by
  constructor
  · intro h
    match anchors, h with
    | [], _ => rfl
    | [a], _ => rfl
    | a :: b :: rest, h => simp at h; omega
  · exact filterMap_pairs_length rooms _

/-! ### Nearby-room detection -/

theorem getPerpendicularDistanceSq_nonneg (p s e : ℚ × ℚ) :
    0 ≤ getPerpendicularDistanceSq p s e := by
  simp only [getPerpendicularDistanceSq]
  split_ifs
  · exact add_nonneg (mul_self_nonneg _) (mul_self_nonneg _)
  all_goals positivity

theorem sqrt_le_100_iff (q : ℚ) :
    Real.sqrt (q : ℝ) ≤ 100 ↔ q ≤ 10000 := by
  rw [Real.sqrt_le_left (by norm_num : (0 : ℝ) ≤ 100)]
  rw [show ((100 : ℝ)) ^ 2 = 10000 by norm_num]
  exact_mod_cast Iff.rfl

/-- Claim C5: a room's name is listed in a segment's `nearbyRooms` exactly
when the Euclidean distance from its bounding-box center to the closest
point of the anchor segment (projection parameter clamped to `[0,1]`, the
single point for a degenerate segment) is at most 100; qualifying names
keep the supplied room order (filter, not a distance sort). -/
theorem claim5 (rooms : List Room) (f t : PathAnchor) :
    ((pairSegment rooms f t).nearbyRooms
        = (rooms.filter fun room =>
            getPerpendicularDistanceSq (roomCenter room) (f.xCoords, f.yCoords)
              (t.xCoords, t.yCoords) ≤ 10000).map Room.name)
    ∧ (∀ room : Room,
        (Real.sqrt ((getPerpendicularDistanceSq (roomCenter room) (f.xCoords, f.yCoords)
              (t.xCoords, t.yCoords) : ℚ) : ℝ) ≤ 100
          ↔ getPerpendicularDistanceSq (roomCenter room) (f.xCoords, f.yCoords)
              (t.xCoords, t.yCoords) ≤ 10000))
    ∧ ((rooms.map Room.name).Nodup → ∀ room ∈ rooms,
        (room.name ∈ (pairSegment rooms f t).nearbyRooms
          ↔ Real.sqrt ((getPerpendicularDistanceSq (roomCenter room) (f.xCoords, f.yCoords)
              (t.xCoords, t.yCoords) : ℚ) : ℝ) ≤ 100)) := by
  have hiff : ∀ room : Room,
      (Real.sqrt ((getPerpendicularDistanceSq (roomCenter room) (f.xCoords, f.yCoords)
            (t.xCoords, t.yCoords) : ℚ) : ℝ) ≤ 100
        ↔ getPerpendicularDistanceSq (roomCenter room) (f.xCoords, f.yCoords)
            (t.xCoords, t.yCoords) ≤ 10000) := fun room => sqrt_le_100_iff _
  have hnear : (pairSegment rooms f t).nearbyRooms
      = (rooms.filter fun room =>
          getPerpendicularDistanceSq (roomCenter room) (f.xCoords, f.yCoords)
            (t.xCoords, t.yCoords) ≤ 10000).map Room.name := rfl
  refine ⟨hnear, hiff, ?_⟩
  intro hnd room hmem
  rw [hiff room, hnear]
  constructor
  · intro h
    obtain ⟨r, hrf, hrname⟩ := List.mem_map.mp h
    have hr := List.mem_filter.mp hrf
    have heq : r = room := List.inj_on_of_nodup_map hnd hr.1 hmem hrname
    subst heq
    simpa using hr.2
  · intro h
    exact List.mem_map.mpr ⟨room, List.mem_filter.mpr ⟨hmem, by simpa using h⟩, rfl⟩

/-- Demo room used by the nearby-room witness: center (50, 50), within
100px of the segment from (0,0) to (100,0). -/
def demoRoomNear : Room := { name := "Lab", x := 0, y := 0, width := 100, height := 100 }

/-- Demo anchors used by the segmenter witnesses. -/
def demoAnchor0 : PathAnchor := { xCoords := 0, yCoords := 0 }

def demoAnchor1 : PathAnchor := { xCoords := 100, yCoords := 0 }

theorem claim8_witness :
    (calculatePathSegments [some demoAnchor0] [] = [])
    ∧ ((calculatePathSegments [some demoAnchor0, none, some demoAnchor1] []).length
        = ([some demoAnchor0, none, some demoAnchor1].zip
            [some demoAnchor0, none, some demoAnchor1].tail).countP
            fun p => p.1.isSome && p.2.isSome) :=
  ⟨(claim8 [some demoAnchor0] []).1 (by decide),
    (claim8 [some demoAnchor0, none, some demoAnchor1] []).2⟩

theorem claim5_witness :
    (([demoRoomNear] : List Room).map Room.name).Nodup
    ∧ (demoRoomNear.name ∈ (pairSegment [demoRoomNear] demoAnchor0 demoAnchor1).nearbyRooms
        ↔ Real.sqrt ((getPerpendicularDistanceSq (roomCenter demoRoomNear)
            (demoAnchor0.xCoords, demoAnchor0.yCoords)
            (demoAnchor1.xCoords, demoAnchor1.yCoords) : ℚ) : ℝ) ≤ 100) :=
  ⟨by decide, (claim5 [demoRoomNear] demoAnchor0 demoAnchor1).2.2 (by decide)
    demoRoomNear (by decide)⟩

/-! ### Display-time step adjuster (`adjustInstructionText` in the room route) -/

/-- The character `{` (code 123). -/
def lbrace : Char := Char.ofNat 123

/-- The character `}` (code 125). -/
def rbrace : Char := Char.ofNat 125

/-- The `StepSize` enum attached to a user profile. -/
inductive StepSize where
  | SMALL
  | MEDIUM
  | LARGE
deriving DecidableEq

/-- Multiplier table of the source `adjustInstructionText`
(`SMALL: 1.4, MEDIUM: 1.0, LARGE: 0.7`), floats taken as exact rationals. -/
def multipliers : StepSize → ℚ
  | .SMALL => 1.4
  | .MEDIUM => 1.0
  | .LARGE => 0.7

/-- `Math.round` on the non-negative rationals that occur here:
round-half-up, `⌊q + 1/2⌋` (via the executable `Rat.floor`;
`jsRound_eq_intFloor` identifies it with the mathematical floor). -/
def jsRound (q : ℚ) : ℤ := (q + 1 / 2).floor

theorem jsRound_eq_intFloor (q : ℚ) : jsRound q = ⌊q + 1 / 2⌋ := by
  rw [jsRound, Rat.floor_def', Rat.floor_def]

/-- `parseInt` on a non-empty digit capture. -/
def digitsToNat (ds : List Char) : ℕ :=
  ds.foldl (fun a c => 10 * a + (c.toNat - 48)) 0

/-- Decimal digit character for `d < 10`. -/
def digitChar10 (d : ℕ) : Char := Char.ofNat (48 + d)

/-- Decimal representation of a natural number (`Number.prototype.toString`
for the non-negative integers produced by the adjuster); fuel-based
recursion so that it evaluates by kernel reduction. -/
def natDigitsAux : ℕ → ℕ → List Char
  | 0, _ => []
  | fuel + 1, n =>
    if n < 10 then [digitChar10 n]
    else natDigitsAux fuel (n / 10) ++ [digitChar10 (n % 10)]

def natDigits (n : ℕ) : List Char := natDigitsAux (n + 1) n

/-- Try to match the regex `\x7b\x7b(\d+)\x7d\x7d` at the head of the
input: two opening braces, one or more digits, two closing braces.
Returns the parsed number and the remaining input.  (The regex engine's
backtracking over `\d+` cannot help: a shorter digit run is followed by a
digit, never by a closing brace, so greedy-no-backtrack is equivalent.) -/
def matchMarkerAt (s : List Char) : Option (ℕ × List Char) :=
  match s with
  | c1 :: c2 :: rest =>
    if c1 = lbrace ∧ c2 = lbrace then
      match rest.takeWhile Char.isDigit, rest.dropWhile Char.isDigit with
      | [], _ => none
      | _ :: _, d1 :: d2 :: r3 =>
        if d1 = rbrace ∧ d2 = rbrace then
          some (digitsToNat (rest.takeWhile Char.isDigit), r3)
        else none
      | _ :: _, _ => none
    else none
  | _ => none

/-- First match of the step-count marker regex in the text, scanning left
to right (the regex engine advances one character after a failed attempt):
returns (text before the match, parsed number, text after the match). -/
def findMarker : List Char → Option (List Char × ℕ × List Char)
  | [] => none
  | c :: cs =>
    match matchMarkerAt (c :: cs) with
    | some (n, rest) => some ([], n, rest)
    | none =>
      match findMarker cs with
      | some (pre, n, rest) => some (c :: pre, n, rest)
      | none => none

/-- The final `replace(/[\x7b\x7d]/g, "")` of the source: remove every
brace character. -/
def stripBraces (s : List Char) : List Char :=
  s.filter fun c => ¬(c = lbrace ∨ c = rbrace)

/-- Source `adjustInstructionText` (room display route): no preference
passes the text through untouched; otherwise the first `\x7b\x7bN\x7d\x7d`
marker (if any) is replaced by `Math.round(N * multiplier)` and every
remaining brace is stripped.  When no marker is found the source computes
`round(0 * multiplier)`, the replace is a no-op, and only the brace
stripping acts. -/
def adjustInstructionText (text : List Char) : Option StepSize → List Char
  | none => text
  | some stepSize =>
    match findMarker text with
    | none => stripBraces text
    | some (pre, n, post) =>
      stripBraces (pre ++ natDigits (jsRound ((n : ℚ) * multipliers stepSize)).toNat ++ post)

/-! ### Adjuster lemmas -/

theorem natDigitsAux_mem (fuel n : ℕ) (c : Char) (hc : c ∈ natDigitsAux fuel n) :
    ∃ d, d < 10 ∧ c = digitChar10 d := by
  induction fuel generalizing n with
  | zero => simp [natDigitsAux] at hc
  | succ fuel ih =>
    rw [natDigitsAux] at hc
    by_cases h : n < 10
    · rw [if_pos h] at hc
      simp only [List.mem_singleton] at hc
      exact ⟨n, h, hc⟩
    · rw [if_neg h] at hc
      rcases List.mem_append.mp hc with h1 | h2
      · exact ih _ h1
      · simp only [List.mem_singleton] at h2
        exact ⟨n % 10, Nat.mod_lt _ (by norm_num), h2⟩

theorem stripBraces_natDigits (n : ℕ) : stripBraces (natDigits n) = natDigits n := by
  apply List.filter_eq_self.mpr
  intro c hc
  obtain ⟨d, hd, rfl⟩ := natDigitsAux_mem _ _ _ hc
  apply decide_eq_true
  interval_cases d <;> decide

theorem stripBraces_append (a b : List Char) :
    stripBraces (a ++ b) = stripBraces a ++ stripBraces b :=
  List.filter_append a b

/-- Claim C3: with a `\x7b\x7bN\x7d\x7d` marker present, the display-time
adjuster substitutes `round(N * m)` with `m = 1.4` for SMALL, `1.0` for
MEDIUM, `0.7` for LARGE, stripping every leftover brace; in particular the
two concrete examples from the specification hold. -/
theorem claim3 :
    (∀ (text pre post : List Char) (n : ℕ) (stepSize : StepSize),
      findMarker text = some (pre, n, post) →
      adjustInstructionText text (some stepSize)
        = stripBraces pre
            ++ natDigits (jsRound ((n : ℚ) * multipliers stepSize)).toNat
            ++ stripBraces post)
    ∧ (∀ q : ℚ, jsRound q = ⌊q + 1 / 2⌋)
    ∧ multipliers .SMALL = 1.4
    ∧ multipliers .MEDIUM = 1.0
    ∧ multipliers .LARGE = 0.7
    ∧ adjustInstructionText "Walk \x7b\x7b10\x7d\x7d steps".data (some .SMALL)
        = "Walk 14 steps".data
    ∧ adjustInstructionText "Walk \x7b\x7b10\x7d\x7d steps".data (some .LARGE)
        = "Walk 7 steps".data := by
  have hmain : ∀ (text pre post : List Char) (n : ℕ) (stepSize : StepSize),
      findMarker text = some (pre, n, post) →
      adjustInstructionText text (some stepSize)
        = stripBraces pre
            ++ natDigits (jsRound ((n : ℚ) * multipliers stepSize)).toNat
            ++ stripBraces post := by
    intro text pre post n stepSize h
    simp only [adjustInstructionText, h, stripBraces_append, stripBraces_natDigits]
  have hfind : findMarker "Walk \x7b\x7b10\x7d\x7d steps".data
      = some ("Walk ".data, 10, " steps".data) := by decide
  have h14 : jsRound (((10 : ℕ) : ℚ) * multipliers .SMALL) = 14 := by
    rw [jsRound_eq_intFloor]
    norm_num [multipliers, Int.floor_eq_iff]
  have h7 : jsRound (((10 : ℕ) : ℚ) * multipliers .LARGE) = 7 := by
    rw [jsRound_eq_intFloor]
    norm_num [multipliers, Int.floor_eq_iff]
  refine ⟨hmain, jsRound_eq_intFloor, rfl, rfl, rfl, ?_, ?_⟩
  · rw [hmain _ _ _ 10 .SMALL hfind, h14]
    decide
  · rw [hmain _ _ _ 10 .LARGE hfind, h7]
    decide

theorem claim3_witness :
    findMarker "Walk \x7b\x7b10\x7d\x7d steps".data
        = some ("Walk ".data, 10, " steps".data)
    ∧ adjustInstructionText "Walk \x7b\x7b10\x7d\x7d steps".data (some .SMALL)
        = stripBraces "Walk ".data
            ++ natDigits (jsRound ((10 : ℚ) * multipliers .SMALL)).toNat
            ++ stripBraces " steps".data :=
  ⟨by decide, claim3.1 _ _ _ 10 .SMALL (by decide)⟩

/-- Claim C7 counterexample: a marker-less text containing a stray brace is
NOT returned unchanged — the source strips every brace even when no
`\x7b\x7bN\x7d\x7d` marker exists, so the claim as stated is false. -/
theorem claim7_counterexample :
    findMarker "No \x7bmarkers here".data = none
    ∧ adjustInstructionText "No \x7bmarkers here".data (some .MEDIUM)
        ≠ "No \x7bmarkers here".data := by
  constructor
  · decide
  · decide

/-- Claim C7 (amended): on marker-less text the adjuster never fails and
returns the text with every brace character removed; a marker-less text
containing no braces is returned identical. -/
theorem claim7_amended (text : List Char) (stepSize : StepSize)
    (h : findMarker text = none) :
    adjustInstructionText text (some stepSize) = stripBraces text
    ∧ (lbrace ∉ text → rbrace ∉ text →
        adjustInstructionText text (some stepSize) = text) := by
  have hadj : adjustInstructionText text (some stepSize) = stripBraces text := by
    simp only [adjustInstructionText, h]
  refine ⟨hadj, fun hl hr => ?_⟩
  rw [hadj]
  apply List.filter_eq_self.mpr
  intro c hc
  apply decide_eq_true
  rintro (rfl | rfl)
  · exact hl hc
  · exact hr hc

theorem claim7_witness :
    findMarker "No markers here".data = none
    ∧ adjustInstructionText "No markers here".data (some .MEDIUM)
        = stripBraces "No markers here".data
    ∧ adjustInstructionText "No markers here".data (some .MEDIUM)
        = "No markers here".data :=
  ⟨by decide, (claim7_amended _ .MEDIUM (by decide)).1,
    (claim7_amended _ .MEDIUM (by decide)).2 (by decide) (by decide)⟩

/-- Claim C10: with no step-size preference (`stepSize` undefined) the
adjuster returns its input unchanged — no substitution, no brace
stripping. -/
theorem claim10 (text : List Char) : adjustInstructionText text none = text := rfl

/-! ### Stream parser (`parseCompletionContent`)

The source parses the accumulated completion buffer with
`content.match(/SSTART\s*\n([\s\S]*?)(SEND|$)/)?.[1] || ""` for the steps
block and the analogous `C:` / `EC` pair for the concise block, then
splits on newlines and filters/strips per line.  The regex behaviour is
embedded exactly:

  * the engine scans left to right for an occurrence of the start token
    followed by `\s*\n`; greedy `\s*` with backtracking consumes the
    leading whitespace run up to and including its LAST newline, so the
    captured group begins right after that newline (`afterWsNewline`);
    an occurrence whose following whitespace run contains no newline
    fails and scanning resumes one character further (`findMarkedBlock`);
  * the lazy `([\s\S]*?)(SEND|$)` group ends at the FIRST occurrence of
    the end token, or at the end of the buffer when there is none
    (`takeUntilMarker`).
-/

/-- JavaScript `\s` for the characters that can occur here: space, tab,
newline, carriage return, vertical tab, form feed. -/
def isWsChar (c : Char) : Bool :=
  c = ' ' || c = '\t' || c = '\n' || c = '\r' || c = Char.ofNat 11 || c = Char.ofNat 12

/-- The steps-block start delimiter `SSTART`. -/
def sstartPat : List Char := ['S', 'S', 'T', 'A', 'R', 'T']

/-- The steps-block end delimiter `SEND`. -/
def sendPat : List Char := ['S', 'E', 'N', 'D']

/-- The concise-block start delimiter `C:`. -/
def cPat : List Char := ['C', ':']

/-- The concise-block end delimiter `EC`. -/
def ecPat : List Char := ['E', 'C']

/-- The per-line marker `STEP:`. -/
def stepPat : List Char := ['S', 'T', 'E', 'P', ':']

/-- The stripped prefix `STEP: ` (marker plus one space),
as in `line.replace("STEP: ", "")`. -/
def stepSpacePat : List Char := ['S', 'T', 'E', 'P', ':', ' ']

/-- Consume the leading whitespace run of the input provided it contains a
newline, and return the suffix after the LAST newline of that run (the
`\s*\n` part of the regex, greedy with backtracking); `none` when the
leading whitespace run contains no newline. -/
def afterWsNewline : List Char → Option (List Char)
  | [] => none
  | c :: cs =>
    if c = '\n' then some ((afterWsNewline cs).getD cs)
    else if isWsChar c then afterWsNewline cs
    else none

/-- Scan left to right for the first occurrence of `pat` that is followed
by a whitespace run containing a newline; return the suffix after that
run's last newline (the regex group start).  A failed occurrence resumes
the scan one character further, like the regex engine. -/
def findMarkedBlock (pat : List Char) : List Char → Option (List Char)
  | [] => none
  | c :: cs =>
    if pat.isPrefixOf (c :: cs) then
      match afterWsNewline ((c :: cs).drop pat.length) with
      | some r => some r
      | none => findMarkedBlock pat cs
    else findMarkedBlock pat cs

/-- Everything before the first occurrence of `pat`, or the whole input
when `pat` does not occur (the lazy group ending at `SEND|$`). -/
def takeUntilMarker (pat : List Char) : List Char → List Char
  | [] => []
  | c :: cs => if pat.isPrefixOf (c :: cs) then [] else c :: takeUntilMarker pat cs

/-- The delimited section: regex group between the start token and the
first end token (or buffer end); empty when the start pattern never
matches. -/
def sectionOf (startPat endPat : List Char) (content : List Char) : List Char :=
  match findMarkedBlock startPat content with
  | some r => takeUntilMarker endPat r
  | none => []

/-- `String.prototype.split("\n")`. -/
def splitNl : List Char → List (List Char)
  | [] => [[]]
  | c :: cs =>
    let r := splitNl cs
    if c = '\n' then [] :: r else (c :: r.headD []) :: r.tail

/-- `String.prototype.replace(pat, "")` with a string pattern: remove the
first occurrence of `pat`, if any. -/
def replaceFirst (pat : List Char) : List Char → List Char
  | [] => []
  | c :: cs =>
    if pat.isPrefixOf (c :: cs) then (c :: cs).drop pat.length
    else c :: replaceFirst pat cs

/-- `String.prototype.trim()`. -/
def trimWs (s : List Char) : List Char :=
  ((s.dropWhile isWsChar).reverse.dropWhile isWsChar).reverse

/-- The steps-line filter `line.startsWith("STEP:")`. -/
def stepLineSel (l : List Char) : Bool := stepPat.isPrefixOf l

/-- The steps-line transform `line.replace("STEP: ", "").trim()`. -/
def stepLineOut (l : List Char) : List Char := trimWs (replaceFirst stepSpacePat l)

/-- The concise-line filter `(line) => line.trim()` (truthy = non-blank). -/
def conciseLineSel (l : List Char) : Bool := ¬(trimWs l = [])

/-- The steps list of the source `parseCompletionContent`: lines of the
`SSTART`..`SEND` section that start with `STEP:`, with `STEP: ` removed
and the line trimmed. -/
def parseSteps (content : List Char) : List (List Char) :=
  ((splitNl (sectionOf sstartPat sendPat content)).filter stepLineSel).map stepLineOut

/-- The concise list of the source `parseCompletionContent`: non-blank
lines (raw, not trimmed) of the `C:`..`EC` section. -/
def parseConcise (content : List Char) : List (List Char) :=
  (splitNl (sectionOf cPat ecPat content)).filter conciseLineSel

/-- Result record of `parseCompletionContent`. -/
structure ParsedCompletion where
  steps : List (List Char)
  conciseInstructions : List (List Char)
deriving DecidableEq

/-- Source `parseCompletionContent`. -/
def parseCompletionContent (content : List Char) : ParsedCompletion :=
  { steps := parseSteps content, conciseInstructions := parseConcise content }

/-! ### Generic list lemmas for the parser proofs -/

theorem isPrefixOf_iff_ex (p s : List Char) :
    p.isPrefixOf s = true ↔ ∃ t, s = p ++ t := by
  induction p generalizing s with
  | nil => simp [List.isPrefixOf]
  | cons a as ih =>
    cases s with
    | nil => simp [List.isPrefixOf]
    | cons b bs =>
      simp only [List.isPrefixOf, Bool.and_eq_true, beq_iff_eq, ih, List.cons_append,
        List.cons.injEq]
      constructor
      · rintro ⟨rfl, t, rfl⟩
        exact ⟨t, rfl, rfl⟩
      · rintro ⟨t, rfl, rfl⟩
        exact ⟨rfl, t, rfl⟩

theorem isPrefixOf_ext (p s T : List Char) (h : p.isPrefixOf s = true) :
    p.isPrefixOf (s ++ T) = true := by
  obtain ⟨t, rfl⟩ := (isPrefixOf_iff_ex p s).mp h
  exact (isPrefixOf_iff_ex _ _).mpr ⟨t ++ T, by simp⟩

theorem isPrefixOf_length_le (p s : List Char) (h : p.isPrefixOf s = true) :
    p.length ≤ s.length := by
  obtain ⟨t, rfl⟩ := (isPrefixOf_iff_ex p s).mp h
  simp

theorem isPrefixOf_of_append_le (p s T : List Char)
    (h : p.isPrefixOf (s ++ T) = true) (hl : p.length ≤ s.length) :
    p.isPrefixOf s = true := by
  obtain ⟨t, ht⟩ := (isPrefixOf_iff_ex p (s ++ T)).mp h
  have hp : p = s.take p.length := by
    have h1 : (s ++ T).take p.length = s.take p.length :=
      List.take_append_of_le_length hl
    rw [ht] at h1
    simpa using h1
  apply (isPrefixOf_iff_ex p s).mpr
  refine ⟨s.drop p.length, ?_⟩
  conv_lhs => rw [← List.take_append_drop p.length s]
  rw [← hp]

theorem mem_of_isPrefixOf (p s : List Char) (h : p.isPrefixOf s = true)
    (c : Char) (hc : c ∈ p) : c ∈ s := by
  obtain ⟨t, rfl⟩ := (isPrefixOf_iff_ex p s).mp h
  exact List.mem_append_left t hc

theorem nlAppend_noNewMatch (p s : List Char) (hnl : ('\n' : Char) ∉ p)
    (h : p.isPrefixOf (s ++ ['\n']) = true) (hns : ¬ p.isPrefixOf s = true) :
    False := by
  rcases le_or_lt p.length s.length with hl | hl
  · exact hns (isPrefixOf_of_append_le p s _ h hl)
  · have hl2 : p.length ≤ s.length + 1 := by
      have := isPrefixOf_length_le p _ h
      simpa using this
    have hlen : p.length = s.length + 1 := by omega
    obtain ⟨t, ht⟩ := (isPrefixOf_iff_ex p _).mp h
    have hlen2 : s.length + 1 = p.length + t.length := by
      have := congrArg List.length ht
      simpa using this
    have htn : t = [] := List.length_eq_zero.mp (by omega)
    rw [htn, List.append_nil] at ht
    exact hnl (ht ▸ List.mem_append_right s (List.mem_singleton_self _))

theorem dropLast_append_getLastD {α : Type} :
    ∀ (l : List α) (d : α), l ≠ [] → l.dropLast ++ [l.getLastD d] = l
  | [], _, h => absurd rfl h
  | [a], _, _ => rfl
  | a :: b :: m, d, _ => by
    have ih := dropLast_append_getLastD (b :: m) a (by simp)
    rw [List.dropLast_cons₂, List.getLastD_cons, List.cons_append, ih]

theorem dropLast_app_le_one {α : Type} (A C : List α) (h : C.length ≤ 1) :
    (A ++ C).dropLast <+: A := by
  match C, h with
  | [], _ =>
    rw [List.append_nil]
    cases hA : A with
    | nil => simp
    | cons a as =>
      rw [← hA]
      exact ⟨[A.getLastD a], dropLast_append_getLastD A a (by rw [hA]; simp)⟩
  | [c], _ =>
    rw [List.dropLast_concat]

theorem takeToApp {α : Type} (A C : List α) : A <+: A ++ C := ⟨C, rfl⟩

theorem headD_append {α : Type} (l m : List α) (d : α) (h : l ≠ []) :
    (l ++ m).headD d = l.headD d := by
  cases l with
  | nil => exact absurd rfl h
  | cons a as => rfl

theorem tail_append_of_ne {α : Type} (l m : List α) (h : l ≠ []) :
    (l ++ m).tail = l.tail ++ m := by
  cases l with
  | nil => exact absurd rfl h
  | cons a as => rfl

theorem dropLast_cons_of_ne {α : Type} (a : α) (l : List α) (h : l ≠ []) :
    (a :: l).dropLast = a :: l.dropLast := by
  cases l with
  | nil => exact absurd rfl h
  | cons b m => rfl

theorem getLastD_cons_of_ne {α : Type} (a : α) (l : List α) (d : α) (h : l ≠ []) :
    (a :: l).getLastD d = l.getLastD d := by
  cases l with
  | nil => exact absurd rfl h
  | cons b m => simp [List.getLastD_cons]

/-! ### splitNl lemmas -/

theorem splitNl_ne_nil (B : List Char) : splitNl B ≠ [] := by
  cases B with
  | nil => simp [splitNl]
  | cons c cs =>
    rw [splitNl]
    by_cases h : c = '\n' <;> simp [h]

theorem splitNl_noNl (X : List Char) (h : ∀ c ∈ X, c ≠ '\n') : splitNl X = [X] := by
  induction X with
  | nil => rfl
  | cons c cs ih =>
    have hc : c ≠ '\n' := h c (List.mem_cons_self c cs)
    rw [splitNl]
    simp only [if_neg hc]
    rw [ih fun d hd => h d (List.mem_cons_of_mem c hd)]
    rfl

theorem splitNl_concat_nl (B : List Char) :
    splitNl (B ++ ['\n']) = splitNl B ++ [[]] := by
  induction B with
  | nil => rfl
  | cons c cs ih =>
    by_cases h : c = '\n'
    · subst h
      rw [List.cons_append, splitNl, if_pos rfl, ih, splitNl, if_pos rfl,
        List.cons_append]
    · rw [List.cons_append, splitNl, if_neg h, ih, splitNl, if_neg h,
        headD_append _ _ _ (splitNl_ne_nil cs),
        tail_append_of_ne _ _ (splitNl_ne_nil cs), List.cons_append]

theorem splitNl_append_ex (B X : List Char) :
    ∃ z zs, splitNl (B ++ X) = (splitNl B).dropLast ++ z :: zs := by
  induction B with
  | nil =>
    cases h : splitNl X with
    | nil => exact absurd h (splitNl_ne_nil X)
    | cons z zs => exact ⟨z, zs, by simpa [splitNl] using h⟩
  | cons c cs ih =>
    obtain ⟨z, zs, hz⟩ := ih
    by_cases h : c = '\n'
    · subst h
      refine ⟨z, zs, ?_⟩
      rw [List.cons_append, splitNl, if_pos rfl, hz, splitNl, if_pos rfl,
        dropLast_cons_of_ne _ _ (splitNl_ne_nil cs), List.cons_append]
    · cases hsc : splitNl cs with
      | nil => exact absurd hsc (splitNl_ne_nil cs)
      | cons a m =>
        cases m with
        | nil =>
          -- splitNl (c :: cs) is a single line; its dropLast is []
          cases hx : splitNl (c :: (cs ++ X)) with
          | nil => exact absurd hx (splitNl_ne_nil _)
          | cons z2 zs2 =>
            refine ⟨z2, zs2, ?_⟩
            rw [List.cons_append, hx]
            rw [show splitNl (c :: cs) = (c :: a) :: ([] : List (List Char)) from by
              rw [splitNl, if_neg h, hsc]
              rfl]
            rfl
        | cons b m2 =>
          refine ⟨z, zs, ?_⟩
          rw [hsc] at hz
          have hz2 : splitNl (cs ++ X) = a :: ((b :: m2).dropLast ++ z :: zs) := by
            rw [hz, List.dropLast_cons₂, List.cons_append]
          rw [List.cons_append]
          rw [show splitNl (c :: (cs ++ X))
              = (c :: a) :: ((b :: m2).dropLast ++ z :: zs) from by
            rw [splitNl, if_neg h, hz2]
            rfl]
          rw [show splitNl (c :: cs) = (c :: a) :: b :: m2 from by
            rw [splitNl, if_neg h, hsc]
            rfl]
          rw [List.dropLast_cons₂, List.cons_append]

theorem splitNl_append_noNl (B X : List Char) (h : ∀ c ∈ X, c ≠ '\n') :
    splitNl (B ++ X) = (splitNl B).dropLast ++ [(splitNl B).getLastD [] ++ X] := by
  induction B with
  | nil =>
    rw [List.nil_append, splitNl_noNl X h]
    rfl
  | cons c cs ih =>
    by_cases hc : c = '\n'
    · subst hc
      rw [List.cons_append, splitNl, if_pos rfl, ih, splitNl, if_pos rfl,
        dropLast_cons_of_ne _ _ (splitNl_ne_nil cs), List.cons_append,
        getLastD_cons_of_ne _ _ _ (splitNl_ne_nil cs)]
    · cases hsc : splitNl cs with
      | nil => exact absurd hsc (splitNl_ne_nil cs)
      | cons a m =>
        cases m with
        | nil =>
          have hih : splitNl (cs ++ X) = [a ++ X] := by
            rw [ih, hsc]
            rfl
          rw [List.cons_append]
          rw [show splitNl (c :: (cs ++ X)) = [c :: (a ++ X)] from by
            rw [splitNl, if_neg hc, hih]
            rfl]
          rw [show splitNl (c :: cs) = [c :: a] from by
            rw [splitNl, if_neg hc, hsc]
            rfl]
          rfl
        | cons b m2 =>
          have hih : splitNl (cs ++ X)
              = a :: ((b :: m2).dropLast ++ [(b :: m2).getLastD a ++ X]) := by
            rw [ih, hsc, List.dropLast_cons₂, List.getLastD_cons, List.cons_append]
          rw [List.cons_append]
          rw [show splitNl (c :: (cs ++ X))
              = (c :: a) :: ((b :: m2).dropLast ++ [(b :: m2).getLastD a ++ X]) from by
            rw [splitNl, if_neg hc, hih]
            rfl]
          rw [show splitNl (c :: cs) = (c :: a) :: b :: m2 from by
            rw [splitNl, if_neg hc, hsc]
            rfl]
          simp only [List.dropLast_cons₂, List.getLastD_cons, List.cons_append]

/-! ### Per-line entry extraction -/

/-- The common shape of both per-line extractions: split the section into
lines, keep those selected, transform each. -/
def lineEntries (sel : List Char → Bool) (tf : List Char → List Char)
    (B : List Char) : List (List Char) :=
  ((splitNl B).filter sel).map tf

theorem filtered_singleton_le_one (sel : List Char → Bool)
    (tf : List Char → List Char) (x : List Char) :
    ((List.filter sel [x]).map tf).length ≤ 1 := by
  by_cases h : sel x <;> simp [h]

theorem lineEntries_concat_nl (sel : List Char → Bool) (tf : List Char → List Char)
    (hsel : sel [] = false) (B : List Char) :
    lineEntries sel tf (B ++ ['\n']) = lineEntries sel tf B := by
  rw [lineEntries, lineEntries, splitNl_concat_nl, List.filter_append]
  simp [hsel]

theorem lineEntries_app_dropLast (sel : List Char → Bool) (tf : List Char → List Char)
    (B X : List Char) :
    (lineEntries sel tf B).dropLast <+: lineEntries sel tf (B ++ X) := by
  obtain ⟨z, zs, hsp⟩ := splitNl_append_ex B X
  have hB : (splitNl B).dropLast ++ [(splitNl B).getLastD []] = splitNl B :=
    dropLast_append_getLastD _ _ (splitNl_ne_nil B)
  have h1 : lineEntries sel tf B
      = ((List.filter sel (splitNl B).dropLast).map tf)
        ++ ((List.filter sel [(splitNl B).getLastD []]).map tf) := by
    conv_lhs => rw [lineEntries, ← hB, List.filter_append, List.map_append]
  have h2 : lineEntries sel tf (B ++ X)
      = ((List.filter sel (splitNl B).dropLast).map tf)
        ++ ((List.filter sel (z :: zs)).map tf) := by
    conv_lhs => rw [lineEntries, hsp, List.filter_append, List.map_append]
  rw [h1, h2]
  exact (dropLast_app_le_one _ _ (filtered_singleton_le_one sel tf _)).trans
    (takeToApp _ _)

theorem lineEntries_trunc_dropLast (sel : List Char → Bool) (tf : List Char → List Char)
    (B D : List Char) (hD : ∀ c ∈ D, c ≠ '\n') :
    (lineEntries sel tf (B ++ D)).dropLast <+: lineEntries sel tf B := by
  have hsp := splitNl_append_noNl B D hD
  have hB : (splitNl B).dropLast ++ [(splitNl B).getLastD []] = splitNl B :=
    dropLast_append_getLastD _ _ (splitNl_ne_nil B)
  have h1 : lineEntries sel tf (B ++ D)
      = ((List.filter sel (splitNl B).dropLast).map tf)
        ++ ((List.filter sel [(splitNl B).getLastD [] ++ D]).map tf) := by
    conv_lhs => rw [lineEntries, hsp, List.filter_append, List.map_append]
  have h2 : lineEntries sel tf B
      = ((List.filter sel (splitNl B).dropLast).map tf)
        ++ ((List.filter sel [(splitNl B).getLastD []]).map tf) := by
    conv_lhs => rw [lineEntries, ← hB, List.filter_append, List.map_append]
  rw [h1, h2]
  exact (dropLast_app_le_one _ _ (filtered_singleton_le_one sel tf _)).trans
    (takeToApp _ _)

/-! ### afterWsNewline lemmas -/

theorem aw_none_ext : ∀ (t T : List Char), afterWsNewline t = none →
    (∃ c ∈ t, isWsChar c = false) → afterWsNewline (t ++ T) = none := by
  intro t T
  induction t with
  | nil =>
    intro _ hnw
    simp at hnw
  | cons c cs ih =>
    intro h hnw
    rw [afterWsNewline] at h
    by_cases hcn : c = '\n'
    · rw [if_pos hcn] at h
      exact Option.noConfusion h
    · rw [if_neg hcn] at h
      by_cases hcw : isWsChar c = true
      · rw [if_pos hcw] at h
        rw [List.cons_append, afterWsNewline, if_neg hcn, if_pos hcw]
        apply ih h
        obtain ⟨d, hd, hdw⟩ := hnw
        rcases List.mem_cons.mp hd with rfl | hd2
        · rw [hcw] at hdw
          exact absurd hdw (by simp)
        · exact ⟨d, hd2, hdw⟩
      · rw [List.cons_append, afterWsNewline, if_neg hcn, if_neg hcw]

theorem aw_some_ext : ∀ (t T r : List Char), afterWsNewline t = some r →
    (∃ c ∈ r, isWsChar c = false) → afterWsNewline (t ++ T) = some (r ++ T) := by
  intro t T
  induction t with
  | nil =>
    intro r h _
    exact Option.noConfusion h
  | cons c cs ih =>
    intro r h hnw
    rw [afterWsNewline] at h
    by_cases hcn : c = '\n'
    · rw [if_pos hcn] at h
      injection h with h
      rw [List.cons_append, afterWsNewline, if_pos hcn]
      cases hcs : afterWsNewline cs with
      | some r1 =>
        rw [hcs, Option.getD_some] at h
        subst h
        rw [ih r1 hcs hnw, Option.getD_some]
      | none =>
        rw [hcs, Option.getD_none] at h
        subst h
        rw [aw_none_ext cs T hcs hnw, Option.getD_none]
    · rw [if_neg hcn] at h
      by_cases hcw : isWsChar c = true
      · rw [if_pos hcw] at h
        rw [List.cons_append, afterWsNewline, if_neg hcn, if_pos hcw]
        exact ih r h hnw
      · rw [if_neg hcw] at h
        exact Option.noConfusion h

theorem aw_allws_none_nl : ∀ (t : List Char), afterWsNewline t = none →
    (∀ c ∈ t, isWsChar c = true) → afterWsNewline (t ++ ['\n']) = some [] := by
  intro t
  induction t with
  | nil =>
    intro _ _
    simp [afterWsNewline]
  | cons c cs ih =>
    intro h hall
    rw [afterWsNewline] at h
    by_cases hcn : c = '\n'
    · rw [if_pos hcn] at h
      exact Option.noConfusion h
    · rw [if_neg hcn] at h
      have hcw : isWsChar c = true := hall c (List.mem_cons_self c cs)
      rw [if_pos hcw] at h
      rw [List.cons_append, afterWsNewline, if_neg hcn, if_pos hcw]
      exact ih h fun d hd => hall d (List.mem_cons_of_mem c hd)

theorem aw_allws_some_nl : ∀ (t r : List Char), afterWsNewline t = some r →
    (∀ c ∈ r, isWsChar c = true) → afterWsNewline (t ++ ['\n']) = some [] := by
  intro t
  induction t with
  | nil =>
    intro r h _
    exact Option.noConfusion h
  | cons c cs ih =>
    intro r h hall
    rw [afterWsNewline] at h
    by_cases hcn : c = '\n'
    · rw [if_pos hcn] at h
      injection h with h
      rw [List.cons_append, afterWsNewline, if_pos hcn]
      cases hcs : afterWsNewline cs with
      | some r1 =>
        rw [hcs, Option.getD_some] at h
        subst h
        rw [ih r1 hcs hall, Option.getD_some]
      | none =>
        rw [hcs, Option.getD_none] at h
        subst h
        rw [aw_allws_none_nl cs hcs hall, Option.getD_some]
    · rw [if_neg hcn] at h
      by_cases hcw : isWsChar c = true
      · rw [if_pos hcw] at h
        rw [List.cons_append, afterWsNewline, if_neg hcn, if_pos hcw]
        exact ih r h hall
      · rw [if_neg hcw] at h
        exact Option.noConfusion h

theorem aw_none_allws_nonl : ∀ (t : List Char), afterWsNewline t = none →
    (∀ c ∈ t, isWsChar c = true) → ∀ c ∈ t, c ≠ '\n' := by
  intro t
  induction t with
  | nil =>
    intro _ _ c hc
    simp at hc
  | cons c cs ih =>
    intro h hall d hd
    rw [afterWsNewline] at h
    by_cases hcn : c = '\n'
    · rw [if_pos hcn] at h
      exact Option.noConfusion h
    · rw [if_neg hcn, if_pos (hall c (List.mem_cons_self c cs))] at h
      rcases List.mem_cons.mp hd with rfl | hd2
      · exact hcn
      · exact ih h (fun e he => hall e (List.mem_cons_of_mem c he)) d hd2

theorem aw_some_allws_nonl : ∀ (t r : List Char), afterWsNewline t = some r →
    (∀ c ∈ r, isWsChar c = true) → ∀ c ∈ r, c ≠ '\n' := by
  intro t
  induction t with
  | nil =>
    intro r h
    exact Option.noConfusion h
  | cons c cs ih =>
    intro r h hall
    rw [afterWsNewline] at h
    by_cases hcn : c = '\n'
    · rw [if_pos hcn] at h
      injection h with h
      cases hcs : afterWsNewline cs with
      | some r1 =>
        rw [hcs, Option.getD_some] at h
        subst h
        exact ih r1 hcs hall
      | none =>
        rw [hcs, Option.getD_none] at h
        subst h
        exact aw_none_allws_nonl cs hcs hall
    · rw [if_neg hcn] at h
      by_cases hcw : isWsChar c = true
      · rw [if_pos hcw] at h
        exact ih r h hall
      · rw [if_neg hcw] at h
        exact Option.noConfusion h

/-! ### findMarkedBlock lemmas -/

theorem bool_ne_true_eq_false {b : Bool} (h : ¬ b = true) : b = false := by
  cases b
  · rfl
  · exact absurd rfl h

theorem fm_step_ne (ph : Char) (pt : List Char) (c : Char) (cs : List Char)
    (hne : ¬ (ph :: pt).isPrefixOf (c :: cs) = true) :
    findMarkedBlock (ph :: pt) (c :: cs) = findMarkedBlock (ph :: pt) cs := by
  rw [findMarkedBlock, if_neg hne]

theorem not_isPrefixOf_of_head_ne (ph c : Char) (pt cs : List Char) (h : ph ≠ c) :
    ¬ (ph :: pt).isPrefixOf (c :: cs) = true := by
  intro hx
  obtain ⟨t, ht⟩ := (isPrefixOf_iff_ex _ _).mp hx
  rw [List.cons_append] at ht
  injection ht with h1 _
  exact h h1.symm

theorem fm_short (ph : Char) (pt : List Char) :
    ∀ s : List Char, s.length < pt.length + 1 → findMarkedBlock (ph :: pt) s = none := by
  intro s
  induction s with
  | nil => intro _; rfl
  | cons c cs ih =>
    intro hlen
    have hp : ¬ (ph :: pt).isPrefixOf (c :: cs) = true := by
      intro hx
      have := isPrefixOf_length_le _ _ hx
      simp at this hlen
      omega
    rw [fm_step_ne _ _ _ _ hp]
    apply ih
    simp at hlen ⊢
    omega

theorem fm_ws (ph : Char) (pt : List Char) (hw : isWsChar ph = false) :
    ∀ w : List Char, (∀ c ∈ w, isWsChar c = true) →
    findMarkedBlock (ph :: pt) w = none := by
  intro w
  induction w with
  | nil => intro _; rfl
  | cons c cs ih =>
    intro hall
    have hp : ¬ (ph :: pt).isPrefixOf (c :: cs) = true := by
      apply not_isPrefixOf_of_head_ne
      intro hpc
      rw [hpc, hall c (List.mem_cons_self c cs)] at hw
      exact Bool.noConfusion hw
    rw [fm_step_ne _ _ _ _ hp]
    exact ih fun d hd => hall d (List.mem_cons_of_mem c hd)

theorem fm_some_ext (ph : Char) (pt : List Char) (_hw : isWsChar ph = false)
    (hnocc : ∀ w, (∀ c ∈ w, isWsChar c = true) →
      findMarkedBlock (ph :: pt) (pt ++ w) = none) :
    ∀ (s T r : List Char), findMarkedBlock (ph :: pt) s = some r →
    (∃ c ∈ r, isWsChar c = false) →
    findMarkedBlock (ph :: pt) (s ++ T) = some (r ++ T) := by
  intro s T
  induction s with
  | nil =>
    intro r h _
    exact Option.noConfusion h
  | cons c cs ih =>
    intro r h hnw
    rw [findMarkedBlock] at h
    by_cases hp : (ph :: pt).isPrefixOf (c :: cs) = true
    · rw [if_pos hp] at h
      have hple : pt.length ≤ cs.length := by
        have := isPrefixOf_length_le _ _ hp
        simp at this
        omega
      have hp2 : (ph :: pt).isPrefixOf (c :: (cs ++ T)) = true := by
        rw [← List.cons_append]
        exact isPrefixOf_ext _ _ _ hp
      have hdropeq : (c :: (cs ++ T)).drop (ph :: pt).length
          = ((c :: cs).drop (ph :: pt).length) ++ T := by
        simp only [List.length_cons, List.drop_succ_cons]
        exact List.drop_append_of_le_length hple
      cases haw : afterWsNewline ((c :: cs).drop (ph :: pt).length) with
      | some r0 =>
        rw [haw] at h
        have hr := Option.some.inj h
        subst hr
        rw [List.cons_append, findMarkedBlock, if_pos hp2, hdropeq,
          aw_some_ext _ T r0 haw hnw]
      | none =>
        rw [haw] at h
        by_cases hall : ∀ c' ∈ (c :: cs).drop (ph :: pt).length, isWsChar c' = true
        · exfalso
          obtain ⟨t0, ht0⟩ := (isPrefixOf_iff_ex _ _).mp hp
          rw [List.cons_append] at ht0
          have hcs : cs = pt ++ t0 := (List.cons.inj ht0).2
          have ht0d : t0 = (c :: cs).drop (ph :: pt).length := by
            rw [hcs]
            simp only [List.length_cons, List.drop_succ_cons]
            rw [List.drop_left]
          rw [hcs, hnocc t0 (by rw [ht0d]; exact hall)] at h
          exact Option.noConfusion h
        · push_neg at hall
          obtain ⟨d, hd, hdw⟩ := hall
          have hawT : afterWsNewline (((c :: cs).drop (ph :: pt).length) ++ T) = none :=
            aw_none_ext _ T haw ⟨d, hd, bool_ne_true_eq_false hdw⟩
          rw [List.cons_append, findMarkedBlock, if_pos hp2, hdropeq, hawT]
          exact ih r h hnw
    · rw [if_neg hp] at h
      have hp2 : ¬ (ph :: pt).isPrefixOf (c :: (cs ++ T)) = true := by
        intro hx
        rw [← List.cons_append] at hx
        rcases le_or_lt (ph :: pt).length (c :: cs).length with hl | hl
        · exact hp (isPrefixOf_of_append_le _ _ _ hx hl)
        · have hnone : findMarkedBlock (ph :: pt) cs = none := by
            apply fm_short
            simp at hl ⊢
            omega
          rw [hnone] at h
          exact Option.noConfusion h
      rw [List.cons_append, findMarkedBlock, if_neg hp2]
      exact ih r h hnw

theorem fm_none_nl (ph : Char) (pt : List Char) (hw : isWsChar ph = false)
    (hnl : ('\n' : Char) ∉ (ph :: pt)) :
    ∀ s : List Char, findMarkedBlock (ph :: pt) s = none →
    findMarkedBlock (ph :: pt) (s ++ ['\n']) = none
      ∨ findMarkedBlock (ph :: pt) (s ++ ['\n']) = some [] := by
  intro s
  induction s with
  | nil =>
    intro _
    left
    have hp : ¬ (ph :: pt).isPrefixOf ('\n' :: ([] : List Char)) = true := by
      apply not_isPrefixOf_of_head_ne
      intro hpc
      rw [hpc] at hw
      exact absurd hw (by decide)
    rw [List.nil_append, fm_step_ne _ _ _ _ hp]
    rfl
  | cons c cs ih =>
    intro h
    rw [findMarkedBlock] at h
    by_cases hp : (ph :: pt).isPrefixOf (c :: cs) = true
    · rw [if_pos hp] at h
      have hple : pt.length ≤ cs.length := by
        have := isPrefixOf_length_le _ _ hp
        simp at this
        omega
      have hp2 : (ph :: pt).isPrefixOf (c :: (cs ++ ['\n'])) = true := by
        rw [← List.cons_append]
        exact isPrefixOf_ext _ _ _ hp
      have hdropeq : (c :: (cs ++ ['\n'])).drop (ph :: pt).length
          = ((c :: cs).drop (ph :: pt).length) ++ ['\n'] := by
        simp only [List.length_cons, List.drop_succ_cons]
        exact List.drop_append_of_le_length hple
      cases haw : afterWsNewline ((c :: cs).drop (ph :: pt).length) with
      | some r0 =>
        rw [haw] at h
        exact Option.noConfusion h
      | none =>
        rw [haw] at h
        by_cases hall : ∀ c' ∈ (c :: cs).drop (ph :: pt).length, isWsChar c' = true
        · right
          rw [List.cons_append, findMarkedBlock, if_pos hp2, hdropeq,
            aw_allws_none_nl _ haw hall]
        · push_neg at hall
          obtain ⟨d, hd, hdw⟩ := hall
          have hawT := aw_none_ext _ ['\n'] haw ⟨d, hd, bool_ne_true_eq_false hdw⟩
          rw [List.cons_append, findMarkedBlock, if_pos hp2, hdropeq, hawT]
          exact ih h
    · rw [if_neg hp] at h
      have hp2 : ¬ (ph :: pt).isPrefixOf (c :: (cs ++ ['\n'])) = true := by
        intro hx
        rw [← List.cons_append] at hx
        exact nlAppend_noNewMatch _ _ hnl hx hp
      rw [List.cons_append, findMarkedBlock, if_neg hp2]
      exact ih h

theorem fm_some_allws_nl (ph : Char) (pt : List Char) (_hw : isWsChar ph = false)
    (hnl : ('\n' : Char) ∉ (ph :: pt)) :
    ∀ (s r : List Char), findMarkedBlock (ph :: pt) s = some r →
    (∀ c ∈ r, isWsChar c = true) →
    findMarkedBlock (ph :: pt) (s ++ ['\n']) = some [] := by
  intro s
  induction s with
  | nil =>
    intro r h _
    exact Option.noConfusion h
  | cons c cs ih =>
    intro r h hall
    rw [findMarkedBlock] at h
    by_cases hp : (ph :: pt).isPrefixOf (c :: cs) = true
    · rw [if_pos hp] at h
      have hple : pt.length ≤ cs.length := by
        have := isPrefixOf_length_le _ _ hp
        simp at this
        omega
      have hp2 : (ph :: pt).isPrefixOf (c :: (cs ++ ['\n'])) = true := by
        rw [← List.cons_append]
        exact isPrefixOf_ext _ _ _ hp
      have hdropeq : (c :: (cs ++ ['\n'])).drop (ph :: pt).length
          = ((c :: cs).drop (ph :: pt).length) ++ ['\n'] := by
        simp only [List.length_cons, List.drop_succ_cons]
        exact List.drop_append_of_le_length hple
      cases haw : afterWsNewline ((c :: cs).drop (ph :: pt).length) with
      | some r0 =>
        rw [haw] at h
        have hr := Option.some.inj h
        subst hr
        rw [List.cons_append, findMarkedBlock, if_pos hp2, hdropeq,
          aw_allws_some_nl _ r0 haw hall]
      | none =>
        rw [haw] at h
        by_cases hall2 : ∀ c' ∈ (c :: cs).drop (ph :: pt).length, isWsChar c' = true
        · rw [List.cons_append, findMarkedBlock, if_pos hp2, hdropeq,
            aw_allws_none_nl _ haw hall2]
        · push_neg at hall2
          obtain ⟨d, hd, hdw⟩ := hall2
          have hawT := aw_none_ext _ ['\n'] haw ⟨d, hd, bool_ne_true_eq_false hdw⟩
          rw [List.cons_append, findMarkedBlock, if_pos hp2, hdropeq, hawT]
          exact ih r h hall
    · rw [if_neg hp] at h
      have hp2 : ¬ (ph :: pt).isPrefixOf (c :: (cs ++ ['\n'])) = true := by
        intro hx
        rw [← List.cons_append] at hx
        exact nlAppend_noNewMatch _ _ hnl hx hp
      rw [List.cons_append, findMarkedBlock, if_neg hp2]
      exact ih r h hall

/-- No occurrence of `SSTART` can start inside the tail `START` of a
previous occurrence followed by whitespace (`SSTART` has no self-overlap,
and whitespace cannot begin it). -/
theorem fm_nocc_sstart : ∀ w, (∀ c ∈ w, isWsChar c = true) →
    findMarkedBlock sstartPat (['S', 'T', 'A', 'R', 'T'] ++ w) = none := by
  intro w hall
  rw [show sstartPat = 'S' :: ['S', 'T', 'A', 'R', 'T'] from rfl]
  rw [show ((['S', 'T', 'A', 'R', 'T'] : List Char) ++ w)
      = 'S' :: 'T' :: 'A' :: 'R' :: 'T' :: w from rfl]
  have h1 : ¬ (('S' :: ['S', 'T', 'A', 'R', 'T']).isPrefixOf
      ('S' :: 'T' :: 'A' :: 'R' :: 'T' :: w)) = true := by
    intro hx
    obtain ⟨t, ht⟩ := (isPrefixOf_iff_ex _ _).mp hx
    simp only [List.cons_append] at ht
    injection ht with _ h2
    injection h2 with h3 _
    exact absurd h3 (by decide)
  rw [fm_step_ne _ _ _ _ h1,
    fm_step_ne _ _ _ _ (not_isPrefixOf_of_head_ne _ _ _ _ (by decide)),
    fm_step_ne _ _ _ _ (not_isPrefixOf_of_head_ne _ _ _ _ (by decide)),
    fm_step_ne _ _ _ _ (not_isPrefixOf_of_head_ne _ _ _ _ (by decide)),
    fm_step_ne _ _ _ _ (not_isPrefixOf_of_head_ne _ _ _ _ (by decide))]
  exact fm_ws 'S' _ (by decide) w hall

/-- Analogue for the `C:` start pattern. -/
theorem fm_nocc_c : ∀ w, (∀ c ∈ w, isWsChar c = true) →
    findMarkedBlock cPat ([':'] ++ w) = none := by
  intro w hall
  rw [show cPat = 'C' :: [':'] from rfl]
  rw [show (([':'] : List Char) ++ w) = ':' :: w from rfl]
  rw [fm_step_ne _ _ _ _ (not_isPrefixOf_of_head_ne _ _ _ _ (by decide))]
  exact fm_ws 'C' _ (by decide) w hall

/-! ### takeUntilMarker lemmas -/

theorem tu_short (pat : List Char) :
    ∀ r : List Char, r.length < pat.length → takeUntilMarker pat r = r := by
  intro r
  induction r with
  | nil => intro _; rfl
  | cons c cs ih =>
    intro hlen
    have hp : ¬ pat.isPrefixOf (c :: cs) = true := by
      intro hx
      have := isPrefixOf_length_le _ _ hx
      omega
    rw [takeUntilMarker, if_neg hp, ih (by simp at hlen ⊢; omega)]

theorem tu_ws (eh : Char) (et : List Char) (hwe : isWsChar eh = false) :
    ∀ r : List Char, (∀ c ∈ r, isWsChar c = true) →
    takeUntilMarker (eh :: et) r = r := by
  intro r
  induction r with
  | nil => intro _; rfl
  | cons c cs ih =>
    intro hall
    have hp : ¬ (eh :: et).isPrefixOf (c :: cs) = true := by
      apply not_isPrefixOf_of_head_ne
      intro hec
      rw [hec, hall c (List.mem_cons_self c cs)] at hwe
      exact Bool.noConfusion hwe
    rw [takeUntilMarker, if_neg hp, ih fun d hd => hall d (List.mem_cons_of_mem c hd)]

theorem tu_append (pat : List Char) :
    ∀ (r T : List Char),
    (∃ X, takeUntilMarker pat (r ++ T) = takeUntilMarker pat r ++ X)
    ∨ (∃ j, takeUntilMarker pat (r ++ T) = r.take j
        ∧ (r.drop j).isPrefixOf pat = true ∧ takeUntilMarker pat r = r) := by
  intro r T
  induction r with
  | nil => exact Or.inl ⟨takeUntilMarker pat T, rfl⟩
  | cons c cs ih =>
    by_cases hp : pat.isPrefixOf (c :: cs) = true
    · left
      refine ⟨[], ?_⟩
      have hp2 : pat.isPrefixOf (c :: (cs ++ T)) = true := by
        rw [← List.cons_append]
        exact isPrefixOf_ext _ _ _ hp
      rw [List.cons_append, takeUntilMarker, if_pos hp2, takeUntilMarker, if_pos hp]
      rfl
    · by_cases hp2 : pat.isPrefixOf (c :: (cs ++ T)) = true
      · right
        have hl : (c :: cs).length < pat.length := by
          rcases le_or_lt pat.length (c :: cs).length with hl0 | hl0
          · exact absurd (isPrefixOf_of_append_le pat (c :: cs) T
              (by rw [List.cons_append]; exact hp2) hl0) hp
          · exact hl0
        have hpp : (c :: cs).isPrefixOf pat = true := by
          obtain ⟨t, ht⟩ := (isPrefixOf_iff_ex _ _).mp hp2
          have htake : c :: cs = pat.take (c :: cs).length := by
            have h1 : (pat ++ t).take (c :: cs).length = pat.take (c :: cs).length :=
              List.take_append_of_le_length (le_of_lt hl)
            rw [← ht, show c :: (cs ++ T) = (c :: cs) ++ T from by rw [List.cons_append],
              List.take_append_of_le_length (le_refl _), List.take_length] at h1
            exact h1
          apply (isPrefixOf_iff_ex _ _).mpr
          refine ⟨pat.drop (c :: cs).length, ?_⟩
          conv_lhs => rw [← List.take_append_drop (c :: cs).length pat, ← htake]
        refine ⟨0, ?_, ?_, ?_⟩
        · rw [List.cons_append, takeUntilMarker, if_pos hp2]
          rfl
        · simpa using hpp
        · exact tu_short pat (c :: cs) hl
      · rcases ih with ⟨X, hX⟩ | ⟨j, h1, h2, h3⟩
        · left
          refine ⟨X, ?_⟩
          rw [List.cons_append, takeUntilMarker, if_neg hp2, hX, takeUntilMarker,
            if_neg hp, List.cons_append]
        · right
          refine ⟨j + 1, ?_, ?_, ?_⟩
          · rw [List.cons_append, takeUntilMarker, if_neg hp2, h1]
            rfl
          · simpa using h2
          · rw [takeUntilMarker, if_neg hp, h3]

theorem tu_nocut_nl (pat : List Char) (hne : pat ≠ []) (hnl : ('\n' : Char) ∉ pat) :
    ∀ r : List Char, takeUntilMarker pat r = r →
    takeUntilMarker pat (r ++ ['\n']) = r ++ ['\n'] := by
  intro r
  induction r with
  | nil =>
    intro _
    have hp : ¬ pat.isPrefixOf ('\n' :: ([] : List Char)) = true := by
      intro hx
      obtain ⟨t, ht⟩ := (isPrefixOf_iff_ex _ _).mp hx
      cases pat with
      | nil => exact hne rfl
      | cons p ps =>
        rw [List.cons_append] at ht
        injection ht with h1 _
        apply hnl
        rw [h1]
        exact List.mem_cons_self p ps
    rw [List.nil_append, takeUntilMarker, if_neg hp]
    rfl
  | cons c cs ih =>
    intro hr
    have hp : ¬ pat.isPrefixOf (c :: cs) = true := by
      intro hx
      rw [takeUntilMarker, if_pos hx] at hr
      exact List.noConfusion hr
    have hcs : takeUntilMarker pat cs = cs := by
      rw [takeUntilMarker, if_neg hp] at hr
      exact (List.cons.inj hr).2
    have hp2 : ¬ pat.isPrefixOf (c :: (cs ++ ['\n'])) = true := by
      intro hx
      rw [← List.cons_append] at hx
      exact nlAppend_noNewMatch _ _ hnl hx hp
    rw [List.cons_append, takeUntilMarker, if_neg hp2, ih hcs]

theorem tu_cut_nl (pat : List Char) (hnl : ('\n' : Char) ∉ pat) :
    ∀ r : List Char, takeUntilMarker pat r ≠ r →
    takeUntilMarker pat (r ++ ['\n']) = takeUntilMarker pat r := by
  intro r
  induction r with
  | nil =>
    intro h
    exact absurd rfl h
  | cons c cs ih =>
    intro hr
    by_cases hp : pat.isPrefixOf (c :: cs) = true
    · have hp2 : pat.isPrefixOf (c :: (cs ++ ['\n'])) = true := by
        rw [← List.cons_append]
        exact isPrefixOf_ext _ _ _ hp
      rw [List.cons_append, takeUntilMarker, if_pos hp2, takeUntilMarker, if_pos hp]
    · have hp2 : ¬ pat.isPrefixOf (c :: (cs ++ ['\n'])) = true := by
        intro hx
        rw [← List.cons_append] at hx
        exact nlAppend_noNewMatch _ _ hnl hx hp
      have hcs : takeUntilMarker pat cs ≠ cs := by
        intro he
        apply hr
        rw [takeUntilMarker, if_neg hp, he]
      rw [List.cons_append, takeUntilMarker, if_neg hp2, takeUntilMarker, if_neg hp,
        ih hcs]

/-! ### Section and claims for the parser -/

theorem fm_output_aw (pat : List Char) : ∀ (s r : List Char),
    findMarkedBlock pat s = some r → ∃ t, afterWsNewline t = some r := by
  intro s
  induction s with
  | nil =>
    intro r h
    exact Option.noConfusion h
  | cons c cs ih =>
    intro r h
    rw [findMarkedBlock] at h
    by_cases hp : pat.isPrefixOf (c :: cs) = true
    · rw [if_pos hp] at h
      cases haw : afterWsNewline ((c :: cs).drop pat.length) with
      | some r0 =>
        rw [haw] at h
        have hr := Option.some.inj h
        exact ⟨(c :: cs).drop pat.length, by rw [haw, hr]⟩
      | none =>
        rw [haw] at h
        exact ih r h
    · rw [if_neg hp] at h
      exact ih r h

theorem stepLineSel_ws (l : List Char) (hall : ∀ c ∈ l, isWsChar c = true) :
    stepLineSel l = false := by
  cases l with
  | nil => rfl
  | cons c cs =>
    apply bool_ne_true_eq_false
    rw [show stepLineSel (c :: cs) = (('S' :: ['T', 'E', 'P', ':']).isPrefixOf (c :: cs)) from rfl]
    apply not_isPrefixOf_of_head_ne
    intro he
    have hc := hall c (List.mem_cons_self c cs)
    rw [← he] at hc
    exact absurd hc (by decide)

theorem trim_ws_nil (l : List Char) (hall : ∀ c ∈ l, isWsChar c = true) :
    trimWs l = [] := by
  rw [trimWs]
  have h1 : l.dropWhile isWsChar = [] := List.dropWhile_eq_nil_iff.mpr hall
  rw [h1]
  rfl

theorem conciseLineSel_ws (l : List Char) (hall : ∀ c ∈ l, isWsChar c = true) :
    conciseLineSel l = false := by
  rw [conciseLineSel, trim_ws_nil l hall]
  simp

/-- Appending the flushing newline does not change the extracted entries of
one delimited section: generic over the two delimiter patterns and the
per-line selector/transform. -/
theorem sectionEntries_nl
    (ph : Char) (pt : List Char) (eh : Char) (et : List Char)
    (sel : List Char → Bool) (tf : List Char → List Char)
    (hwp : isWsChar ph = false) (hwe : isWsChar eh = false)
    (hnlp : ('\n' : Char) ∉ (ph :: pt)) (hnle : ('\n' : Char) ∉ (eh :: et))
    (hnocc : ∀ w, (∀ c ∈ w, isWsChar c = true) →
      findMarkedBlock (ph :: pt) (pt ++ w) = none)
    (hselws : ∀ l, (∀ c ∈ l, isWsChar c = true) → sel l = false)
    (content : List Char) :
    lineEntries sel tf (sectionOf (ph :: pt) (eh :: et) (content ++ ['\n']))
      = lineEntries sel tf (sectionOf (ph :: pt) (eh :: et) content) := by
  have hsel0 : sel [] = false := hselws [] (by simp)
  cases hfm : findMarkedBlock (ph :: pt) content with
  | none =>
    rcases fm_none_nl ph pt hwp hnlp content hfm with h2 | h2
    · simp only [sectionOf, hfm, h2]
    · simp only [sectionOf, hfm, h2]
      rfl
  | some r =>
    by_cases hall : ∀ c ∈ r, isWsChar c = true
    · have h2 := fm_some_allws_nl ph pt hwp hnlp content r hfm hall
      obtain ⟨t0, haw0⟩ := fm_output_aw (ph :: pt) content r hfm
      have hnonl : ∀ c ∈ r, c ≠ '\n' := aw_some_allws_nonl t0 r haw0 hall
      have hsecC : sectionOf (ph :: pt) (eh :: et) content = r := by
        simp only [sectionOf, hfm]
        exact tu_ws eh et hwe r hall
      have hsecN : sectionOf (ph :: pt) (eh :: et) (content ++ ['\n']) = [] := by
        simp only [sectionOf, h2]
        rfl
      have hr : lineEntries sel tf r = [] := by
        rw [lineEntries, splitNl_noNl r hnonl]
        simp [hselws r hall]
      have h0 : lineEntries sel tf [] = [] := by
        rw [lineEntries]
        simp [splitNl, hsel0]
      rw [hsecN, hsecC, h0, hr]
    · push_neg at hall
      obtain ⟨d, hd, hdw⟩ := hall
      have hnw : ∃ c ∈ r, isWsChar c = false := ⟨d, hd, bool_ne_true_eq_false hdw⟩
      have h2 := fm_some_ext ph pt hwp hnocc content ['\n'] r hfm hnw
      by_cases hcut : takeUntilMarker (eh :: et) r = r
      · have hsecC : sectionOf (ph :: pt) (eh :: et) content = r := by
          simp only [sectionOf, hfm]
          exact hcut
        have hsecN : sectionOf (ph :: pt) (eh :: et) (content ++ ['\n']) = r ++ ['\n'] := by
          simp only [sectionOf, h2]
          exact tu_nocut_nl (eh :: et) (by simp) hnle r hcut
        rw [hsecN, hsecC]
        exact lineEntries_concat_nl sel tf hsel0 r
      · have hsecC : sectionOf (ph :: pt) (eh :: et) content
            = takeUntilMarker (eh :: et) r := by
          simp only [sectionOf, hfm]
        have hsecN : sectionOf (ph :: pt) (eh :: et) (content ++ ['\n'])
            = takeUntilMarker (eh :: et) r := by
          simp only [sectionOf, h2]
          exact tu_cut_nl (eh :: et) hnle r hcut
        rw [hsecN, hsecC]

/-- Re-parsing an arbitrarily grown buffer can change or extend only the
final entry of one delimited section: all earlier entries survive as a
prefix. -/
theorem sectionEntries_ext
    (ph : Char) (pt : List Char) (eh : Char) (et : List Char)
    (sel : List Char → Bool) (tf : List Char → List Char)
    (hwp : isWsChar ph = false) (hwe : isWsChar eh = false)
    (hnle : ('\n' : Char) ∉ (eh :: et))
    (hnocc : ∀ w, (∀ c ∈ w, isWsChar c = true) →
      findMarkedBlock (ph :: pt) (pt ++ w) = none)
    (hselws : ∀ l, (∀ c ∈ l, isWsChar c = true) → sel l = false)
    (content T : List Char) :
    (lineEntries sel tf (sectionOf (ph :: pt) (eh :: et) content)).dropLast
      <+: lineEntries sel tf (sectionOf (ph :: pt) (eh :: et) (content ++ T)) := by
  have hsel0 : sel [] = false := hselws [] (by simp)
  cases hfm : findMarkedBlock (ph :: pt) content with
  | none =>
    have hsecC : sectionOf (ph :: pt) (eh :: et) content = [] := by
      simp only [sectionOf, hfm]
    have h0 : lineEntries sel tf [] = [] := by
      rw [lineEntries]
      simp [splitNl, hsel0]
    rw [hsecC, h0]
    exact ⟨_, rfl⟩
  | some r =>
    by_cases hall : ∀ c ∈ r, isWsChar c = true
    · obtain ⟨t0, haw0⟩ := fm_output_aw (ph :: pt) content r hfm
      have hnonl : ∀ c ∈ r, c ≠ '\n' := aw_some_allws_nonl t0 r haw0 hall
      have hsecC : sectionOf (ph :: pt) (eh :: et) content = r := by
        simp only [sectionOf, hfm]
        exact tu_ws eh et hwe r hall
      have hr : lineEntries sel tf r = [] := by
        rw [lineEntries, splitNl_noNl r hnonl]
        simp [hselws r hall]
      rw [hsecC, hr]
      exact ⟨_, rfl⟩
    · push_neg at hall
      obtain ⟨d, hd, hdw⟩ := hall
      have hnw : ∃ c ∈ r, isWsChar c = false := ⟨d, hd, bool_ne_true_eq_false hdw⟩
      have h2 := fm_some_ext ph pt hwp hnocc content T r hfm hnw
      have hsecC : sectionOf (ph :: pt) (eh :: et) content
          = takeUntilMarker (eh :: et) r := by
        simp only [sectionOf, hfm]
      have hsecN : sectionOf (ph :: pt) (eh :: et) (content ++ T)
          = takeUntilMarker (eh :: et) (r ++ T) := by
        simp only [sectionOf, h2]
      rw [hsecC, hsecN]
      rcases tu_append (eh :: et) r T with ⟨X, hX⟩ | ⟨j, h1, hpref, h3⟩
      · rw [hX]
        exact lineEntries_app_dropLast sel tf _ X
      · rw [h1, h3]
        have hnonlD : ∀ c ∈ r.drop j, c ≠ '\n' := by
          intro c hc he
          apply hnle
          rw [← he]
          exact mem_of_isPrefixOf _ _ hpref c hc
        have hres := lineEntries_trunc_dropLast sel tf (r.take j) (r.drop j) hnonlD
        rw [List.take_append_drop] at hres
        exact hres

theorem parseConcise_eq (content : List Char) :
    parseConcise content = lineEntries conciseLineSel id (sectionOf cPat ecPat content) := by
  rw [lineEntries, List.map_id]
  rfl

/-- Claim C6 counterexample: a buffer whose final character is not a
newline DOES already contribute an entry for its partial trailing line —
here the unterminated line `STEP: Walk` yields the entry `Walk`, so the
claim as stated is false on the code. -/
theorem claim6_counterexample :
    "SSTART\nSTEP: Walk".data.getLast? = some 'k'
    ∧ (parseCompletionContent "SSTART\nSTEP: Walk".data).steps = ["Walk".data] := by
  constructor
  · decide
  · decide

/-- Claim C6 (amended): a qualifying partial trailing line is included as
soon as its text arrives; the newline that "flushes" it changes nothing:
for every buffer, parsing the buffer with a newline appended yields
exactly the same steps and concise lists as parsing the buffer itself. -/
theorem claim6_amended (content : List Char) :
    parseCompletionContent (content ++ ['\n']) = parseCompletionContent content := by
  have hsteps : parseSteps (content ++ ['\n']) = parseSteps content :=
    sectionEntries_nl 'S' ['S', 'T', 'A', 'R', 'T'] 'S' ['E', 'N', 'D']
      stepLineSel stepLineOut
      (by decide) (by decide) (by decide) (by decide)
      fm_nocc_sstart stepLineSel_ws content
  have hconcise : parseConcise (content ++ ['\n']) = parseConcise content := by
    rw [parseConcise_eq, parseConcise_eq]
    exact sectionEntries_nl 'C' [':'] 'E' ['C']
      conciseLineSel id
      (by decide) (by decide) (by decide) (by decide)
      fm_nocc_c conciseLineSel_ws content
  rw [parseCompletionContent, parseCompletionContent, hsteps, hconcise]

/-- Claim C4 counterexample: the steps list for a prefix buffer need not be
a prefix of the steps list for the grown buffer — the entry produced by the
partial trailing line changes as the line grows (`ab` becomes `abc`). -/
theorem claim4_counterexample :
    (∃ t, "SSTART\nSTEP: ab".data ++ t = "SSTART\nSTEP: abc".data)
    ∧ parseSteps "SSTART\nSTEP: ab".data = ["ab".data]
    ∧ parseSteps "SSTART\nSTEP: abc".data = ["abc".data]
    ∧ ¬ (parseSteps "SSTART\nSTEP: ab".data <+: parseSteps "SSTART\nSTEP: abc".data) := by
  refine ⟨⟨"c".data, by decide⟩, by decide, by decide, ?_⟩
  rintro ⟨t, ht⟩
  rw [show parseSteps "SSTART\nSTEP: ab".data = ["ab".data] from by decide,
    show parseSteps "SSTART\nSTEP: abc".data = ["abc".data] from by decide,
    List.cons_append] at ht
  injection ht with h1 _
  exact absurd h1 (by decide)

/-- Claim C4 (amended): re-parsing a grown buffer never removes or changes
any previously available steps entry EXCEPT possibly the last one (the
entry coming from the still-growing trailing portion): for every buffer and
every appended continuation, the steps list of the prefix with its final
element dropped is a prefix of the steps list of the grown buffer. -/
theorem claim4_amended (p1 ext : List Char) :
    (parseSteps p1).dropLast <+: parseSteps (p1 ++ ext) :=
  sectionEntries_ext 'S' ['S', 'T', 'A', 'R', 'T'] 'S' ['E', 'N', 'D']
    stepLineSel stepLineOut
    (by decide) (by decide) (by decide)
    fm_nocc_sstart stepLineSel_ws p1 ext

end SightMap
